import Mathlib

/-
Shallow embedding of the mirror availability engine in src/utils.py.

Python dictionaries are modelled as insertion-ordered association lists,
Python strings as Lean strings (with character-list workers), exceptions
as explicit Except values, and the cooperative scheduling of asyncio as
an explicit wave schedule passed to the checker.
-/

/-- Configuration of one repository (RepoData in the source data model),
restricted to the fields read by mirror_available. -/
structure RepoData where
  name : String
  path : String
  arches : List String
  versions : List String
  vault : Bool
  deriving DecidableEq

/-- Main service configuration (MainConfig in the source data model),
restricted to the fields read by mirror_available.  The fields
allowed_outdate, mirrors_dir, vault_mirror and vault_versions are never
read by the availability core and are omitted. -/
structure MainConfig where
  versions : List String
  duplicated_versions : List (String × String)
  arches : List String
  versions_arches : List (String × List String)
  required_protocols : List String
  repos : List RepoData
  deriving DecidableEq

/-- Mirror descriptor (MirrorData in the source data model), restricted
to the fields read by mirror_available.  The source field named private
is called isPrivate here because private is a reserved word in Lean. -/
structure MirrorData where
  name : String
  urls : List (String × String)
  isPrivate : Bool
  cloud_type : String
  deriving DecidableEq

/-- Split a character list on a separator character, like the Python
str.split method with a one-character separator. -/
def splitOnChar (sep : Char) : List Char → List (List Char)
  | [] => [[]]
  | c :: rest =>
    if c = sep then [] :: splitOnChar sep rest
    else
      match splitOnChar sep rest with
      | [] => [[c]]
      | g :: gs => (c :: g) :: gs

/-- Scheme and netloc and path of an absolute URL, as produced by the
urlsplit step inside urljoin (query and fragment components do not occur
in the URLs this program builds and are not modelled). -/
structure UrlParts where
  scheme : List Char
  netloc : List Char
  path : List Char

/-- Split a URL at its first colon, provided no slash comes before it:
returns the part before the colon and the part after it. -/
def schemeSplit : List Char → Option (List Char × List Char)
  | [] => none
  | '/' :: _ => none
  | ':' :: rest => some ([], rest)
  | c :: rest => (schemeSplit rest).map (fun p => (c :: p.1, p.2))

/-- Characters allowed in a URL scheme after the leading letter. -/
def schemeChar (c : Char) : Bool :=
  c.isAlphanum || c = '+' || c = '-' || c = '.'

/-- Whether a URL reference carries its own scheme. -/
def urlHasScheme (url : List Char) : Bool :=
  match schemeSplit url with
  | none => false
  | some ([], _) => false
  | some (c :: rest, _) => c.isAlpha && rest.all schemeChar

/-- Parse an absolute URL of the shape scheme://netloc/path into its
parts; anything else is treated as a bare path. -/
def parseUrl (s : List Char) : UrlParts :=
  match schemeSplit s with
  | some (sch, '/' :: '/' :: rest) =>
    ⟨sch, rest.takeWhile (fun c => c != '/'), rest.dropWhile (fun c => c != '/')⟩
  | _ => ⟨[], [], s⟩

/-- Process path segments, resolving single-dot and double-dot segments
as in RFC 3986 relative resolution; a trailing dot segment leaves a
trailing slash.  The first argument is the output stack in reverse. -/
def normSegs (stack : List (List Char)) : List (List Char) → List (List Char)
  | [] => stack.reverse
  | seg :: rest =>
    if seg = ['.'] then
      match rest with
      | [] => (([] : List Char) :: stack).reverse
      | _ => normSegs stack rest
    else if seg = ['.', '.'] then
      match rest with
      | [] => (([] : List Char) :: stack.tail).reverse
      | _ => normSegs stack.tail rest
    else
      normSegs (seg :: stack) rest

/-- Resolve a relative path reference against a base path that starts
with a slash: drop the last segment of the base, append the segments of
the reference, and normalise dot segments. -/
def resolveRelPath (basePath rel : List Char) : List Char :=
  '/' :: List.intercalate ['/']
    (normSegs [] ((splitOnChar '/' (basePath.drop 1)).dropLast ++ splitOnChar '/' rel))

/-- Model of urllib.parse.urljoin for http and https URLs without query
or fragment components, on character lists. -/
def urljoinL (base url : List Char) : List Char :=
  match url with
  | [] => base
  | _ :: _ =>
    if urlHasScheme url then url
    else
      match url with
      | '/' :: '/' :: _ => (parseUrl base).scheme ++ ':' :: url
      | '/' :: relRest =>
        (parseUrl base).scheme ++ ':' :: '/' :: '/' :: (parseUrl base).netloc ++
          '/' :: List.intercalate ['/'] (normSegs [] (splitOnChar '/' relRest))
      | _ =>
        (parseUrl base).scheme ++ ':' :: '/' :: '/' :: (parseUrl base).netloc ++
          resolveRelPath (parseUrl base).path url

/-- Model of urllib.parse.urljoin on strings. -/
def urljoin (base url : String) : String :=
  String.mk (urljoinL base.toList url.toList)

/-- Whether a pattern occurs as a contiguous sublist, like the Python
in operator on strings. -/
def containsSub (pat : List Char) : List Char → Bool
  | [] => pat.isEmpty
  | c :: rest => pat.isPrefixOf (c :: rest) || containsSub pat rest

/-- The characters of the placeholder replaced in repository paths. -/
def basearchPat : List Char := ['$', 'b', 'a', 's', 'e', 'a', 'r', 'c', 'h']

/-- The characters of the substring excluding versions on cloud mirrors. -/
def betaPat : List Char := ['b', 'e', 't', 'a']

/-- The characters of the placeholder after its leading dollar sign. -/
def basearchTail : List Char := ['b', 'a', 's', 'e', 'a', 'r', 'c', 'h']

/-- Model of the Python expression path.replace with the literal pattern
basearchPat, with explicit fuel to keep the recursion structural: at
each position, when the pattern starts there it is replaced by the arch
characters and the scan continues after the occurrence, otherwise one
character is kept and the scan moves on.  The fuel never runs out when
it starts at the length of the list. -/
def replaceFuel (arch : List Char) : Nat → List Char → List Char
  | _, [] => []
  | 0, l => l
  | fuel + 1, c :: rest =>
    if basearchPat.isPrefixOf (c :: rest) then
      arch ++ replaceFuel arch fuel (rest.drop 8)
    else c :: replaceFuel arch fuel rest

/-- Replacement of every non-overlapping occurrence of basearchPat,
scanned left to right, like the Python str.replace method with that
literal pattern. -/
def replaceList (arch l : List Char) : List Char := replaceFuel arch l.length l

/-- The repo path substitution of utils.py line 541. -/
def pyReplaceBasearch (path arch : String) : String :=
  String.mk (replaceList arch.toList path.toList)

/-- The list of mirrors which should be always available
(utils.py lines 42-44). -/
def WHITELIST_MIRRORS : List String := ["repo.almalinux.org"]

/-- Restriction entry of the per-mirror whitelist table. -/
structure ArchRepoWhitelist where
  arches : List String
  repos : List String
  deriving DecidableEq

/-- The per-mirror arch and repo whitelist table
(utils.py lines 48-121). -/
def WHITELIST_MIRRORS_PER_ARCH_REPO : List (String × ArchRepoWhitelist) :=
  [("eastus.azure.repo.almalinux.org",
    ⟨["x86_64", "aarch64"],
     ["AppStream", "BaseOS", "HighAvailability", "NFV", "PowerTools", "RT",
      "ResilientStorage", "devel", "extras", "plus"]⟩),
   ("germanywestcentral.azure.repo.almalinux.org",
    ⟨["x86_64", "aarch64"],
     ["AppStream", "BaseOS", "HighAvailability", "NFV", "PowerTools", "RT",
      "ResilientStorage", "devel", "extras", "plus"]⟩),
   ("southeastasia.azure.repo.almalinux.org",
    ⟨["x86_64", "aarch64"],
     ["AppStream", "BaseOS", "HighAvailability", "NFV", "PowerTools", "RT",
      "ResilientStorage", "devel", "extras", "plus"]⟩),
   ("westus2.azure.repo.almalinux.org",
    ⟨["x86_64", "aarch64"],
     ["AppStream", "BaseOS", "HighAvailability", "NFV", "PowerTools", "RT",
      "ResilientStorage", "devel", "extras", "plus"]⟩)]

/-- Dictionary lookup in the whitelist table. -/
def whitelistEntry (name : String) : Option ArchRepoWhitelist :=
  (WHITELIST_MIRRORS_PER_ARCH_REPO.find? (fun p => p.1 == name)).map Prod.snd

/-- Guard of utils.py lines 519-521: the mirror is in the whitelist
table and the repo name is not in its allowed repos. -/
def whitelistRepoSkip (name repoName : String) : Bool :=
  match whitelistEntry name with
  | some wl => !(wl.repos.contains repoName)
  | none => false

/-- Guard of utils.py lines 532-534: the mirror is in the whitelist
table and the arch is not in its allowed arches. -/
def whitelistArchSkip (name arch : String) : Bool :=
  match whitelistEntry name with
  | some wl => !(wl.arches.contains arch)
  | none => false

/-- Embedding of the helper of utils.py lines 446-459. -/
def get_arches_for_version (repo_arches global_arches : List String) : List String :=
  if repo_arches.isEmpty then global_arches else repo_arches

/-- Embedding of the helper of utils.py lines 462-472. -/
def is_permitted_arch_for_this_version_and_repo
    (version arch : String) (versions_arches : List (String × List String)) : Bool :=
  match versions_arches.find? (fun p => p.1 == version) with
  | none => true
  | some p => p.2.contains arch

/-- One record per execution of the dictionary assignment at utils.py
lines 552-555, together with the loop variables in scope at that point
(repoName and arch record provenance for specification purposes; the
dictionary built from these records keeps only url, version and
repo_path). -/
structure EmittedCheck where
  url : String
  version : String
  repo_path : String
  repoName : String
  arch : String
  deriving DecidableEq

/-- Innermost loop body of mirror_available (utils.py lines 531-555):
the candidate emitted for one arch, or nothing when a guard skips it. -/
def archEmit (cfg : MainConfig) (m : MirrorData) (mirror_url version : String)
    (repo_data : RepoData) (arch : String) : List EmittedCheck :=
  if whitelistArchSkip m.name arch = true then []
  else if is_permitted_arch_for_this_version_and_repo version arch cfg.versions_arches = false
  then []
  else
    [⟨urljoin (urljoin (urljoin (mirror_url ++ "/") version ++ "/")
        (pyReplaceBasearch repo_data.path arch) ++ "/") "repodata/repomd.xml",
      version, pyReplaceBasearch repo_data.path arch, repo_data.name, arch⟩]

/-- Repo-level loop body of mirror_available (utils.py lines 518-555). -/
def repoEmit (cfg : MainConfig) (m : MirrorData) (mirror_url version : String)
    (repo_data : RepoData) : List EmittedCheck :=
  if whitelistRepoSkip m.name repo_data.name = true then []
  else if repo_data.vault = true then []
  else if repo_data.versions ≠ [] ∧ version ∉ repo_data.versions then []
  else
    (get_arches_for_version repo_data.arches cfg.arches).flatMap
      (archEmit cfg m mirror_url version repo_data)

/-- Version-level loop body of mirror_available (utils.py lines 511-555). -/
def versionEmit (cfg : MainConfig) (m : MirrorData) (mirror_url version : String) :
    List EmittedCheck :=
  if m.cloud_type ≠ "" ∧ containsSub betaPat version.toList = true then []
  else if version ∈ cfg.duplicated_versions.map Prod.fst then []
  else cfg.repos.flatMap (repoEmit cfg m mirror_url version)

/-- All dictionary assignments performed by the enumeration loops of
mirror_available, in execution order. -/
def emittedChecks (cfg : MainConfig) (m : MirrorData) (mirror_url : String) :
    List EmittedCheck :=
  cfg.versions.flatMap (versionEmit cfg m mirror_url)

/-- Value stored in the urls_for_checking dictionary. -/
structure CandidateInfo where
  version : String
  repo_path : String
  deriving DecidableEq

/-- Python dictionary assignment on an insertion-ordered association
list: an existing key keeps its position and gets the new value, a new
key is appended. -/
def dictInsert (d : List (String × CandidateInfo)) (k : String) (v : CandidateInfo) :
    List (String × CandidateInfo) :=
  if d.any (fun p => p.1 == k) then
    d.map (fun p => if p.1 == k then (k, v) else p)
  else d ++ [(k, v)]

/-- The urls_for_checking dictionary of mirror_available
(utils.py lines 510-555). -/
def urls_for_checking (cfg : MainConfig) (m : MirrorData) (mirror_url : String) :
    List (String × CandidateInfo) :=
  (emittedChecks cfg m mirror_url).foldl
    (fun d e => dictInsert d e.url ⟨e.version, e.repo_path⟩) []

/-- Base URL selection of utils.py lines 497-509: the first entry of the
urls dictionary, in its iteration order, whose protocol key is contained
in required_protocols; none models the StopIteration branch. -/
def selectMirrorUrl (urls : List (String × String)) (required : List String) :
    Option String :=
  (urls.find? (fun p => required.contains p.1)).map Prod.snd

/-- Specification-order selection, modelled from the words of the spec:
the first URL whose protocol appears in requiredProtocols, scanned in
the declared order of requiredProtocols.  Defined only to be compared
with selectMirrorUrl, the selection the code performs. -/
def selectMirrorUrlSpecOrder (urls : List (String × String)) (required : List String) :
    Option String :=
  required.findSome? (fun proto => (urls.find? (fun p => p.1 == proto)).map Prod.snd)

/-- Exception classes that can escape the request and body-read steps of
is_url_available; otherError stands for every class not named in its
except clauses. -/
inductive PyExc
  | timeoutError
  | httpError
  | clientError
  | unicodeError
  | cancelledError
  | otherError
  deriving DecidableEq, Fintype

/-- The tuple of exception classes of the first except clause of
is_url_available (utils.py lines 151-158). -/
def expectedNetworkFailure (e : PyExc) : Bool :=
  match e with
  | .timeoutError => true
  | .httpError => true
  | .clientError => true
  | .unicodeError => true
  | _ => false

/-- Dispatch of a raised exception through the except clauses of
is_url_available (utils.py lines 151-164): the named network failure
classes and CancelledError give False, anything else propagates. -/
def handleProbeExc (e : PyExc) : Except PyExc Bool :=
  if expectedNetworkFailure e = true then .ok false
  else
    match e with
    | .cancelledError => .ok false
    | _ => .error e

/-- Embedding of is_url_available (utils.py lines 126-164).  The two
awaits of the try block are modelled by their outcome: requestExc is the
exception raised by the request call if any, textExc the exception
raised by reading the body, which only happens on a GET request. -/
def is_url_available (is_get_request : Bool) (requestExc textExc : Option PyExc) :
    Except PyExc Bool :=
  match requestExc with
  | some e => handleProbeExc e
  | none =>
    if is_get_request then
      match textExc with
      | some e => handleProbeExc e
      | none => .ok true
    else .ok true

/-- The first exception raised inside the try block of is_url_available,
if any, for a given pair of step outcomes. -/
def raisedExc (is_get_request : Bool) (requestExc textExc : Option PyExc) :
    Option PyExc :=
  match requestExc with
  | some e => some e
  | none => if is_get_request then textExc else none

/-- Errors that escape the task checking code: emptyTaskSet models the
ValueError that asyncio.wait raises on an empty task collection, and
badSchedule marks a schedule that violates the FIRST_COMPLETED guarantee
that at least one task is done. -/
inductive CheckError
  | emptyTaskSet
  | badSchedule
  deriving DecidableEq

/-- Result of the task checking code: the verdict, the tasks that were
still pending and got cancelled when the verdict was reached, and how
many waits were performed before returning. -/
structure CheckOutcome where
  verdict : Bool
  cancelled : List Bool
  wavesConsumed : Nat
  deriving DecidableEq

/-- Tasks of a wave reported as done by asyncio.wait: those selected by
the mask; a task beyond the mask length is not selected. -/
def maskSelect : List Bool → List Bool → List Bool
  | b :: ms, t :: ts => if b then t :: maskSelect ms ts else maskSelect ms ts
  | _, _ => []

/-- Tasks of a wave still pending after asyncio.wait: those not selected
by the mask; tasks beyond the mask length stay pending. -/
def maskReject : List Bool → List Bool → List Bool
  | [], ts => ts
  | _ :: _, [] => []
  | b :: ms, t :: ts => if b then maskReject ms ts else t :: maskReject ms ts

/-- Embedding of the nested coroutine check_tasks of mirror_available
(utils.py lines 582-598).  Each task is its eventual probe result; each
wave of the schedule is the completion mask that asyncio.wait with
FIRST_COMPLETED reports for the currently pending tasks.  A done task
that is false makes the coroutine cancel every pending task and return
False at once; when all done tasks are true and nothing is pending it
returns True; otherwise it recurses on the pending tasks.  An empty task
collection makes asyncio.wait raise ValueError, modelled by
emptyTaskSet.  The wavesConsumed field instruments how many waits were
performed before the verdict. -/
def check_tasks : List (List Bool) → List Bool → Except CheckError CheckOutcome
  | _, [] => .error .emptyTaskSet
  | [], _ :: _ => .error .badSchedule
  | mask :: waves, t :: ts =>
    if maskSelect mask (t :: ts) = [] then .error .badSchedule
    else if (maskSelect mask (t :: ts)).any (fun r => !r) then
      .ok ⟨false, maskReject mask (t :: ts), 1⟩
    else if maskReject mask (t :: ts) = [] then .ok ⟨true, [], 1⟩
    else
      match check_tasks waves (maskReject mask (t :: ts)) with
      | .error e => .error e
      | .ok o => .ok ⟨o.verdict, o.cancelled, o.wavesConsumed + 1⟩

/-- Embedding of mirror_available (utils.py lines 475-608).  The
whitelist_mirrors argument stands for the module constant
WHITELIST_MIRRORS, which is in scope of the source function; the body,
like the source, never reads it.  The probe argument gives the eventual
result of the is_url_available task launched for a URL, and the schedule
drives the asyncio.wait completion order. -/
def mirror_available_core (whitelist_mirrors : List String) (mirror_info : MirrorData)
    (main_config : MainConfig) (schedule : List (List Bool)) (probe : String → Bool) :
    Except CheckError (String × Bool) :=
  if mirror_info.isPrivate = true then .ok (mirror_info.name, true)
  else
    match selectMirrorUrl mirror_info.urls main_config.required_protocols with
    | none => .ok (mirror_info.name, false)
    | some mirror_url =>
      match check_tasks schedule
        ((urls_for_checking main_config mirror_info mirror_url).map (fun e => probe e.1)) with
      | .error e => .error e
      | .ok o => .ok (mirror_info.name, o.verdict)

/-- The source function with its module constants fixed. -/
def mirror_available (mirror_info : MirrorData) (main_config : MainConfig)
    (schedule : List (List Bool)) (probe : String → Bool) :
    Except CheckError (String × Bool) :=
  mirror_available_core WHITELIST_MIRRORS mirror_info main_config schedule probe

/-- URLs for which mirror_available creates an is_url_available task
(utils.py lines 565-580): none on the two early returns, otherwise the
keys of urls_for_checking. -/
def launchedProbes (mirror_info : MirrorData) (main_config : MainConfig) : List String :=
  if mirror_info.isPrivate = true then []
  else
    match selectMirrorUrl mirror_info.urls main_config.required_protocols with
    | none => []
    | some mirror_url =>
      (urls_for_checking main_config mirror_info mirror_url).map Prod.fst

/-- Decidable equality for Except values, by cases on the constructors. -/
instance {ε α : Type} [DecidableEq ε] [DecidableEq α] : DecidableEq (Except ε α) :=
  fun a b =>
    match a, b with
    | .error x, .error y =>
      if h : x = y then isTrue (by rw [h]) else isFalse (fun hc => h (Except.error.inj hc))
    | .error _, .ok _ => isFalse (fun hc => Except.noConfusion hc)
    | .ok _, .error _ => isFalse (fun hc => Except.noConfusion hc)
    | .ok x, .ok y =>
      if h : x = y then isTrue (by rw [h]) else isFalse (fun hc => h (Except.ok.inj hc))

/-- Service configuration of the end-to-end enumerator example: one
version 8, one arch x86_64, one non-vault repo BaseOS with path
containing the basearch placeholder, https required. -/
def exampleMainConfig : MainConfig :=
  ⟨["8"], [], ["x86_64"], [], ["https"], [⟨"BaseOS", "$basearch/os", [], [], false⟩]⟩

/-- Mirror of the end-to-end enumerator example, with base URL
https://example.org/almalinux over the https protocol. -/
def exampleMirror : MirrorData :=
  ⟨"mirror.example.net", [("https", "https://example.org/almalinux")], false, ""⟩

/-- C5: for versions = [8], arches = [x86_64], the single repo BaseOS
with path $basearch/os and vault false, requiredProtocols = [https] and
mirror base URL https://example.org/almalinux, the enumerator emits
exactly one candidate, whose URL is
https://example.org/almalinux/8/x86_64/os/repodata/repomd.xml. -/
theorem enumerator_example_end_to_end :
    selectMirrorUrl exampleMirror.urls exampleMainConfig.required_protocols =
      some "https://example.org/almalinux" ∧
    urls_for_checking exampleMainConfig exampleMirror "https://example.org/almalinux" =
      [("https://example.org/almalinux/8/x86_64/os/repodata/repomd.xml",
        ⟨"8", "x86_64/os"⟩)] :=
  ⟨rfl, by decide⟩

/-- Service configuration with an empty repos list, so that enumeration
yields zero candidates. -/
def emptyReposConfig : MainConfig := ⟨["8"], [], ["x86_64"], [], ["https"], []⟩

/-- Non-private mirror with an eligible https URL, used to exhibit the
zero-candidate behaviour. -/
def emptyReposMirror : MirrorData :=
  ⟨"mirror2.example.net", [("https", "https://example.org/almalinux")], false, ""⟩

/-- C2: a non-private mirror with an eligible protocol URL for which
enumeration yields zero candidates (repos is empty) does not make
checkMirror return (name, false): the empty task collection reaches
asyncio.wait, which raises ValueError.  The four conjuncts record that
the mirror is not private, that an eligible protocol URL exists, that
the enumerator emits zero candidates, and that the call errors instead
of returning normally. -/
theorem mirror_available_empty_candidates_raises :
    emptyReposMirror.isPrivate = false ∧
    selectMirrorUrl emptyReposMirror.urls emptyReposConfig.required_protocols =
      some "https://example.org/almalinux" ∧
    urls_for_checking emptyReposConfig emptyReposMirror "https://example.org/almalinux" = [] ∧
    mirror_available emptyReposMirror emptyReposConfig [] (fun _ => true) =
      .error .emptyTaskSet :=
  ⟨rfl, rfl, rfl, rfl⟩

/-- C7: a private mirror makes checkMirror return (name, true) at once,
for every configuration, schedule and probe behaviour, and no probe task
is created for it. -/
theorem mirror_available_private_trivially_up (m : MirrorData) (cfg : MainConfig)
    (schedule : List (List Bool)) (probe : String → Bool)
    (hpriv : m.isPrivate = true) :
    mirror_available m cfg schedule probe = .ok (m.name, true) ∧
      launchedProbes m cfg = [] := by
  constructor
  · simp [mirror_available, mirror_available_core, hpriv]
  · simp [launchedProbes, hpriv]

/-- Witness for C7 at a concrete private mirror and configuration. -/
theorem mirror_available_private_trivially_up_witness :
    mirror_available ⟨"p.example.net", [], true, ""⟩ emptyReposConfig [] (fun _ => false) =
      .ok ("p.example.net", true) ∧
    launchedProbes ⟨"p.example.net", [], true, ""⟩ emptyReposConfig = [] :=
  mirror_available_private_trivially_up _ _ _ _ rfl

/-- C8: a non-private mirror none of whose URLs has a protocol contained
in required_protocols makes checkMirror return (name, false), and no
probe task is created for it. -/
theorem mirror_no_required_protocol_unavailable (m : MirrorData) (cfg : MainConfig)
    (schedule : List (List Bool)) (probe : String → Bool)
    (hpriv : m.isPrivate = false)
    (hproto : ∀ p ∈ m.urls, cfg.required_protocols.contains p.1 = false) :
    mirror_available m cfg schedule probe = .ok (m.name, false) ∧
      launchedProbes m cfg = [] := by
  have hsel : selectMirrorUrl m.urls cfg.required_protocols = none := by
    unfold selectMirrorUrl
    rw [Option.map_eq_none', List.find?_eq_none]
    intro x hx
    simpa using hproto x hx
  constructor
  · simp [mirror_available, mirror_available_core, hpriv, hsel]
  · simp [launchedProbes, hpriv, hsel]

/-- Witness for C8: a mirror carrying only an ftp URL while https is
required is reported unavailable without probing. -/
theorem mirror_no_required_protocol_unavailable_witness :
    mirror_available ⟨"f.example.net", [("ftp", "ftp://f.example.net/pub")], false, ""⟩
        emptyReposConfig [] (fun _ => true) = .ok ("f.example.net", false) ∧
    launchedProbes ⟨"f.example.net", [("ftp", "ftp://f.example.net/pub")], false, ""⟩
        emptyReposConfig = [] :=
  mirror_no_required_protocol_unavailable _ _ _ _ rfl (by decide)

/-- C9: the verdict of checkMirror does not depend on WHITELIST_MIRRORS:
the availability computation with the constant replaced by any list at
all, in particular the empty one, is the same function, because the body
of mirror_available never reads the constant. -/
theorem whitelist_mirrors_has_no_effect (wl : List String) (m : MirrorData)
    (cfg : MainConfig) (schedule : List (List Bool)) (probe : String → Bool) :
    mirror_available_core wl m cfg schedule probe =
      mirror_available_core [] m cfg schedule probe ∧
    mirror_available_core wl m cfg schedule probe =
      mirror_available m cfg schedule probe :=
  ⟨rfl, rfl⟩

/-- C1 (counterexample): for a mirror whose urls dictionary lists http
before https while requiredProtocols lists https before http, the code
selects the http URL, the first eligible entry in the iteration order of
the map, not the https URL that the declared order of requiredProtocols
would select. -/
theorem selectMirrorUrl_ignores_protocol_order :
    selectMirrorUrl [("http", "http://cex.example/pub"), ("https", "https://cex.example/pub")]
        ["https", "http"] = some "http://cex.example/pub" ∧
    selectMirrorUrlSpecOrder
        [("http", "http://cex.example/pub"), ("https", "https://cex.example/pub")]
        ["https", "http"] = some "https://cex.example/pub" ∧
    selectMirrorUrl [("http", "http://cex.example/pub"), ("https", "https://cex.example/pub")]
        ["https", "http"] ≠
      selectMirrorUrlSpecOrder
        [("http", "http://cex.example/pub"), ("https", "https://cex.example/pub")]
        ["https", "http"] :=
  ⟨rfl, rfl, by decide⟩

/-- C1 (amended): the base URL chosen for enumeration is the value of
the first entry, in the iteration order of the urls map, whose protocol
key is a member of required_protocols; requiredProtocols acts as a
membership set, not as a preference order. -/
theorem selectMirrorUrl_first_in_map_order (urls : List (String × String))
    (required : List String) (addr : String) :
    selectMirrorUrl urls required = some addr ↔
      ∃ l₁ proto l₂, urls = l₁ ++ (proto, addr) :: l₂ ∧
        required.contains proto = true ∧ ∀ q ∈ l₁, required.contains q.1 = false := by
  induction urls with
  | nil => simp [selectMirrorUrl]
  | cons p rest ih =>
    by_cases hp : required.contains p.1 = true
    · have hstep : selectMirrorUrl (p :: rest) required = some p.2 := by
        unfold selectMirrorUrl
        rw [List.find?_cons_of_pos rest
          (show (fun q : String × String => required.contains q.1) p = true from hp)]
        rfl
      rw [hstep, Option.some.injEq]
      constructor
      · intro h
        refine ⟨[], p.1, rest, ?_, hp, by simp⟩
        simp [← h]
      · rintro ⟨l₁, proto, l₂, heq, hproto, hall⟩
        cases l₁ with
        | nil =>
          simp only [List.nil_append, List.cons.injEq] at heq
          rw [heq.1]
        | cons q l₁' =>
          simp only [List.cons_append, List.cons.injEq] at heq
          have hq := hall q (by simp)
          rw [← heq.1] at hq
          rw [hp] at hq
          exact absurd hq (by simp)
    · have hcontains : required.contains p.1 = false := Bool.of_not_eq_true hp
      have hstep : selectMirrorUrl (p :: rest) required = selectMirrorUrl rest required := by
        unfold selectMirrorUrl
        rw [List.find?_cons_of_neg rest
          (show ¬(fun q : String × String => required.contains q.1) p = true from hp)]
      rw [hstep, ih]
      constructor
      · rintro ⟨l₁, proto, l₂, heq, hproto, hall⟩
        refine ⟨p :: l₁, proto, l₂, by rw [heq, List.cons_append], hproto, ?_⟩
        intro q hq
        rcases List.mem_cons.mp hq with h1 | h2
        · rw [h1]
          exact hcontains
        · exact hall q h2
      · rintro ⟨l₁, proto, l₂, heq, hproto, hall⟩
        cases l₁ with
        | nil =>
          exfalso
          simp only [List.nil_append, List.cons.injEq] at heq
          apply hp
          rw [heq.1]
          exact hproto
        | cons q l₁' =>
          simp only [List.cons_append, List.cons.injEq] at heq
          exact ⟨l₁', proto, l₂, heq.2, hproto, fun r hr => hall r (by simp [hr])⟩

/-- Witness for C1 (amended) at the counterexample input: the map-order
characterisation reproduces the http URL the code selects. -/
theorem selectMirrorUrl_first_in_map_order_witness :
    selectMirrorUrl [("http", "http://cex.example/pub"), ("https", "https://cex.example/pub")]
      ["https", "http"] = some "http://cex.example/pub" :=
  (selectMirrorUrl_first_in_map_order _ _ _).mpr
    ⟨[], "http", [("https", "https://cex.example/pub")], rfl, by decide, by simp⟩

/-- C3: the prober returns false, without raising, exactly when the
exception raised inside its try block is one of the expected failure
classes: request timeout, HTTP-level error status, transport or
connection error, text-decoding error of the body, or cancellation by
the caller; it returns true exactly when no exception is raised; and
any other exception propagates out of the function. -/
theorem is_url_available_failure_classification (g : Bool) (rq tx : Option PyExc) :
    (is_url_available g rq tx = .ok false ↔
      ∃ e, raisedExc g rq tx = some e ∧
        (e = .timeoutError ∨ e = .httpError ∨ e = .clientError ∨
          e = .unicodeError ∨ e = .cancelledError)) ∧
    (is_url_available g rq tx = .ok true ↔ raisedExc g rq tx = none) ∧
    (∀ e, raisedExc g rq tx = some e →
      ¬(e = .timeoutError ∨ e = .httpError ∨ e = .clientError ∨
        e = .unicodeError ∨ e = .cancelledError) →
      is_url_available g rq tx = .error e) := by
  cases g <;> rcases rq with _ | e₁ <;> rcases tx with _ | e₂ <;>
    first
      | decide
      | (cases e₁ <;> decide)
      | (cases e₂ <;> decide)
      | (cases e₁ <;> cases e₂ <;> decide)

/-- Witness for C3: an HTTP error gives false, an unexpected exception
propagates, a clean GET gives true. -/
theorem is_url_available_failure_classification_witness :
    is_url_available true (some .httpError) none = .ok false ∧
    is_url_available true none (some .otherError) = .error .otherError ∧
    is_url_available true none none = .ok true :=
  ⟨(is_url_available_failure_classification true (some .httpError) none).1.mpr
      ⟨.httpError, rfl, by decide⟩,
   (is_url_available_failure_classification true none (some .otherError)).2.2
      .otherError rfl (by decide),
   (is_url_available_failure_classification true none none).2.1.mpr rfl⟩

/-- Specification gadget for the fail-fast property: processes a run of
waves in which asyncio.wait always reports a nonempty done set whose
results are all true while tasks stay pending, and returns the tasks
still pending after the run; none when the run does not have this
shape. -/
def allTrueRun : List (List Bool) → List Bool → Option (List Bool)
  | [], [] => none
  | [], t :: ts => some (t :: ts)
  | mask :: pres, tasks =>
    if tasks = [] then none
    else if maskSelect mask tasks = [] then none
    else if (maskSelect mask tasks).any (fun r => !r) then none
    else if maskReject mask tasks = [] then none
    else allTrueRun pres (maskReject mask tasks)

/-- Wave-count shift applied to a checking result. -/
def mapWaves (k : Nat) : Except CheckError CheckOutcome → Except CheckError CheckOutcome
  | .error e => .error e
  | .ok o => .ok ⟨o.verdict, o.cancelled, o.wavesConsumed + k⟩

theorem mapWaves_zero (x : Except CheckError CheckOutcome) : mapWaves 0 x = x := by
  cases x with
  | error e => rfl
  | ok o => simp [mapWaves]

theorem allTrueRun_ne_nil : ∀ (pres : List (List Bool)) (tasks p' : List Bool),
    allTrueRun pres tasks = some p' → p' ≠ [] := by
  intro pres
  induction pres with
  | nil =>
    intro tasks p' h
    cases tasks with
    | nil => exact absurd h (by simp [allTrueRun])
    | cons t ts =>
      simp only [allTrueRun, Option.some.injEq] at h
      rw [← h]
      simp
  | cons mask pres' ih =>
    intro tasks p' h
    simp only [allTrueRun] at h
    split_ifs at h
    exact ih _ _ h

theorem check_tasks_append_run : ∀ (pres : List (List Bool)) (tasks p' : List Bool),
    allTrueRun pres tasks = some p' → ∀ ws,
      check_tasks (pres ++ ws) tasks = mapWaves pres.length (check_tasks ws p') := by
  intro pres
  induction pres with
  | nil =>
    intro tasks p' h ws
    cases tasks with
    | nil => exact absurd h (by simp [allTrueRun])
    | cons t ts =>
      simp only [allTrueRun, Option.some.injEq] at h
      rw [h, List.nil_append, List.length_nil, mapWaves_zero]
  | cons mask pres' ih =>
    intro tasks p' h ws
    simp only [allTrueRun] at h
    split_ifs at h with h1 h2 h3 h4
    obtain ⟨t, ts, rfl⟩ := List.exists_cons_of_ne_nil h1
    have hrec := ih (maskReject mask (t :: ts)) p' h (ws)
    rw [List.cons_append]
    simp only [check_tasks]
    rw [if_neg h2, if_neg h3, if_neg h4, hrec]
    cases check_tasks ws p' with
    | error e => rfl
    | ok o => simp [mapWaves, List.length_cons, Nat.add_assoc]

theorem all_id_of_not_any_not (l : List Bool)
    (h : (l.any (fun r => !r)) = false) : l.all (fun r => r) = true := by
  induction l with
  | nil => rfl
  | cons t ts ih => simp_all [List.any_cons, List.all_cons]

theorem mem_maskSelect_or_maskReject (mask : List Bool) : ∀ (l : List Bool) (x : Bool),
    x ∈ l → x ∈ maskSelect mask l ∨ x ∈ maskReject mask l := by
  induction mask with
  | nil =>
    intro l x hx
    right
    simpa [maskReject] using hx
  | cons b ms ih =>
    intro l x hx
    cases l with
    | nil => simp at hx
    | cons t ts =>
      rcases List.mem_cons.mp hx with rfl | hmem
      · cases b with
        | true =>
          left
          simp [maskSelect]
        | false =>
          right
          simp [maskReject]
      · cases b with
        | true =>
          rcases ih ts x hmem with h | h
          · left
            simp [maskSelect, h]
          · right
            simpa [maskReject] using h
        | false =>
          rcases ih ts x hmem with h | h
          · left
            simpa [maskSelect] using h
          · right
            simp [maskReject, h]

theorem all_of_maskSelect_maskReject (mask l : List Bool)
    (h1 : (maskSelect mask l).all (fun r => r) = true)
    (h2 : (maskReject mask l).all (fun r => r) = true) :
    l.all (fun r => r) = true := by
  rw [List.all_eq_true] at h1 h2 ⊢
  intro x hx
  rcases mem_maskSelect_or_maskReject mask l x hx with h | h
  · exact h1 x h
  · exact h2 x h

theorem check_tasks_ok_true : ∀ (waves : List (List Bool)) (tasks : List Bool)
    (o : CheckOutcome), check_tasks waves tasks = .ok o → o.verdict = true →
    o.cancelled = [] ∧ tasks.all (fun r => r) = true := by
  intro waves
  induction waves with
  | nil =>
    intro tasks o h hv
    cases tasks with
    | nil => exact absurd h (by simp [check_tasks])
    | cons t ts => exact absurd h (by simp [check_tasks])
  | cons mask ws ih =>
    intro tasks o h hv
    cases tasks with
    | nil => exact absurd h (by simp [check_tasks])
    | cons t ts =>
      simp only [check_tasks] at h
      by_cases h1 : maskSelect mask (t :: ts) = []
      · rw [if_pos h1] at h
        exact absurd h (by simp)
      rw [if_neg h1] at h
      by_cases h2 : (maskSelect mask (t :: ts)).any (fun r => !r) = true
      · rw [if_pos h2] at h
        have ho := Except.ok.inj h
        rw [← ho] at hv
        exact absurd hv (by simp)
      rw [if_neg h2] at h
      by_cases h3 : maskReject mask (t :: ts) = []
      · rw [if_pos h3] at h
        have ho := Except.ok.inj h
        constructor
        · rw [← ho]
        · have hdone := all_id_of_not_any_not _ (Bool.of_not_eq_true h2)
          refine all_of_maskSelect_maskReject mask (t :: ts) hdone ?_
          rw [h3]
          rfl
      · rw [if_neg h3] at h
        cases hrec : check_tasks ws (maskReject mask (t :: ts)) with
        | error e =>
          rw [hrec] at h
          exact absurd h (by simp)
        | ok o' =>
          rw [hrec] at h
          have ho := Except.ok.inj h
          have hv' : o'.verdict = true := by
            rw [← ho] at hv
            simpa using hv
          obtain ⟨hc, hall⟩ := ih (maskReject mask (t :: ts)) o' hrec hv'
          constructor
          · rw [← ho]
            simpa using hc
          · have hdone := all_id_of_not_any_not _ (Bool.of_not_eq_true h2)
            exact all_of_maskSelect_maskReject mask (t :: ts) hdone hall

/-- C4: fail-fast aggregation.  Whenever the checking of a nonempty task
set reaches, after any run of all-successful waves, a wave whose done
set contains a false result, the checker returns the verdict false on
that very wave: it cancels exactly the tasks still pending at that
moment and its result does not depend on any later wave of the schedule
(the quantification over rest), so no further wait is performed.  And a
true verdict is only ever returned with nothing cancelled and every
probe result true. -/
theorem check_tasks_fail_fast (tasks : List Bool) (pres : List (List Bool))
    (mask : List Bool) (p' : List Bool)
    (hrun : allTrueRun pres tasks = some p')
    (hdone : maskSelect mask p' ≠ [])
    (hfalse : (maskSelect mask p').any (fun r => !r) = true) :
    (∀ rest, check_tasks (pres ++ mask :: rest) tasks =
      .ok ⟨false, maskReject mask p', pres.length + 1⟩) ∧
    (∀ waves o, check_tasks waves tasks = .ok o → o.verdict = true →
      o.cancelled = [] ∧ tasks.all (fun r => r) = true) := by
  constructor
  · intro rest
    rw [check_tasks_append_run pres tasks p' hrun (mask :: rest)]
    obtain ⟨t, ts, rfl⟩ :=
      List.exists_cons_of_ne_nil (allTrueRun_ne_nil pres tasks p' hrun)
    simp only [check_tasks]
    rw [if_neg hdone, if_pos hfalse]
    simp [mapWaves, Nat.add_comm]
  · intro waves o ho hv
    exact check_tasks_ok_true waves tasks o ho hv

/-- Witness for C4 on the five-probe example of the spec: the first wave
completes probe one with true; the second wave completes probe three
with false; the checker returns false after those two waits, cancelling
the three still-pending probes, with no third wave in the schedule. -/
theorem check_tasks_fail_fast_witness :
    check_tasks ([[true, false, false, false, false]] ++ [false, true] :: [])
        [true, true, false, true, true] = .ok ⟨false, [true, true, true], 2⟩ :=
  (check_tasks_fail_fast [true, true, false, true, true]
    [[true, false, false, false, false]] [false, true] [true, false, true, true]
    (by decide) (by decide) (by decide)).1 []

theorem replaceFuel_congr (arch : List Char) : ∀ (fuel fuel' : Nat) (l : List Char),
    l.length ≤ fuel → l.length ≤ fuel' →
    replaceFuel arch fuel l = replaceFuel arch fuel' l := by
  intro fuel
  induction fuel with
  | zero =>
    intro fuel' l h h'
    have : l = [] := List.eq_nil_of_length_eq_zero (Nat.le_zero.mp h)
    subst this
    cases fuel' <;> rfl
  | succ f ih =>
    intro fuel' l h h'
    cases l with
    | nil => cases fuel' <;> rfl
    | cons c rest =>
      cases fuel' with
      | zero => simp at h'
      | succ f' =>
        simp only [replaceFuel]
        have hr : rest.length ≤ f := by
          simp only [List.length_cons] at h
          omega
        have hr' : rest.length ≤ f' := by
          simp only [List.length_cons] at h'
          omega
        by_cases hp : basearchPat.isPrefixOf (c :: rest) = true
        · rw [if_pos hp, if_pos hp,
            ih f' (rest.drop 8) (by rw [List.length_drop]; omega) (by rw [List.length_drop]; omega)]
        · rw [if_neg hp, if_neg hp, ih f' rest hr hr']

theorem replaceList_eq_of_prefix (arch : List Char) (c : Char) (rest : List Char)
    (h : basearchPat.isPrefixOf (c :: rest) = true) :
    replaceList arch (c :: rest) = arch ++ replaceList arch (rest.drop 8) := by
  unfold replaceList
  simp only [List.length_cons, replaceFuel]
  rw [if_pos h]
  congr 1
  exact replaceFuel_congr arch rest.length (rest.drop 8).length (rest.drop 8)
    (by rw [List.length_drop]; omega) (Nat.le_refl _)

theorem replaceList_eq_cons (arch : List Char) (c : Char) (rest : List Char)
    (h : basearchPat.isPrefixOf (c :: rest) = false) :
    replaceList arch (c :: rest) = c :: replaceList arch rest := by
  unfold replaceList
  simp only [List.length_cons, replaceFuel]
  rw [if_neg (by rw [h]; exact Bool.false_ne_true)]

theorem isPrefixOf_append_self : ∀ (t u : List Char), t.isPrefixOf (t ++ u) = true := by
  intro t
  induction t with
  | nil =>
    intro u
    simp [List.isPrefixOf]
  | cons a t' ih =>
    intro u
    simp only [List.cons_append, List.isPrefixOf, Bool.and_eq_true]
    exact ⟨by simp, ih u⟩

theorem isPrefixOf_of_append (t : List Char) : ∀ (p u : List Char),
    t.isPrefixOf (p ++ u) = true → t.length ≤ p.length → t.isPrefixOf p = true := by
  induction t with
  | nil =>
    intro p u _ _
    simp [List.isPrefixOf]
  | cons a t' ih =>
    intro p u h hlen
    cases p with
    | nil => simp at hlen
    | cons b p' =>
      simp only [List.cons_append, List.isPrefixOf, Bool.and_eq_true] at h ⊢
      refine ⟨h.1, ih p' u h.2 ?_⟩
      simp only [List.length_cons] at hlen
      omega

theorem length_le_of_isPrefixOf_noDollar : ∀ (t u r : List Char),
    t.all (fun c => c != '$') = true → t.isPrefixOf (u ++ '$' :: r) = true →
    t.length ≤ u.length := by
  intro t
  induction t with
  | nil => intro u r _ _; simp
  | cons a t' ih =>
    intro u r hnd h
    cases u with
    | nil =>
      simp only [List.nil_append, List.isPrefixOf, Bool.and_eq_true] at h
      have ha : a = '$' := by simpa using h.1
      rw [List.all_cons, Bool.and_eq_true] at hnd
      rw [ha] at hnd
      simp at hnd
    | cons b u' =>
      simp only [List.cons_append, List.isPrefixOf, Bool.and_eq_true] at h
      rw [List.all_cons, Bool.and_eq_true] at hnd
      have := ih u' r hnd.2 h.2
      simp only [List.length_cons]
      omega

theorem basearchTail_noDollar : basearchTail.all (fun c => c != '$') = true := by decide

theorem basearch_no_straddle (c : Char) (p' r : List Char)
    (hno : containsSub basearchPat (c :: p') = false) :
    basearchPat.isPrefixOf (c :: (p' ++ (basearchPat ++ r))) = false := by
  by_contra hcon
  rw [Bool.not_eq_false] at hcon
  have hcon' : ('$' == c) = true ∧
      basearchTail.isPrefixOf (p' ++ ('$' :: (basearchTail ++ r))) = true := by
    have h := hcon
    rw [show basearchPat = '$' :: basearchTail from rfl] at h
    simp only [List.isPrefixOf, Bool.and_eq_true] at h
    exact h
  have hlen : basearchTail.length ≤ p'.length :=
    length_le_of_isPrefixOf_noDollar basearchTail p' (basearchTail ++ r)
      basearchTail_noDollar hcon'.2
  have htp : basearchTail.isPrefixOf p' = true :=
    isPrefixOf_of_append basearchTail p' ('$' :: (basearchTail ++ r)) hcon'.2 hlen
  have hfull : basearchPat.isPrefixOf (c :: p') = true := by
    rw [show basearchPat = '$' :: basearchTail from rfl]
    simp only [List.isPrefixOf, Bool.and_eq_true]
    exact ⟨hcon'.1, htp⟩
  rw [containsSub, hfull] at hno
  simp at hno

theorem replaceList_no_occurrence (arch : List Char) : ∀ (p : List Char),
    containsSub basearchPat p = false → replaceList arch p = p := by
  intro p
  induction p with
  | nil => intro _; rfl
  | cons c p' ih =>
    intro h
    have h' := h
    rw [containsSub, Bool.or_eq_false_iff] at h'
    rw [replaceList_eq_cons arch c p' h'.1, ih h'.2]

theorem replaceList_skip_clean (arch : List Char) : ∀ (p r : List Char),
    containsSub basearchPat p = false →
    replaceList arch (p ++ (basearchPat ++ r)) = p ++ (arch ++ replaceList arch r) := by
  intro p
  induction p with
  | nil =>
    intro r _
    simp only [List.nil_append]
    have hpre : basearchPat.isPrefixOf ('$' :: (basearchTail ++ r)) = true :=
      isPrefixOf_append_self basearchPat r
    have hstep := replaceList_eq_of_prefix arch '$' (basearchTail ++ r) hpre
    rw [show basearchPat ++ r = '$' :: (basearchTail ++ r) from rfl, hstep,
      show (8 : Nat) = basearchTail.length from rfl, List.drop_left]
  | cons c p' ih =>
    intro r h
    have hstr := basearch_no_straddle c p' r h
    rw [List.cons_append, replaceList_eq_cons arch c (p' ++ (basearchPat ++ r)) hstr]
    rw [containsSub, Bool.or_eq_false_iff] at h
    rw [ih r h.2, List.cons_append]

theorem intercalate_two_or_more (sep p q : List Char) (l : List (List Char)) :
    List.intercalate sep (p :: q :: l) = p ++ (sep ++ List.intercalate sep (q :: l)) := rfl

/-- C10: the basearch substitution replaces every occurrence of the
placeholder, not only the first: on a path decomposed into clean pieces
separated by occurrences of the placeholder (pieces containing no
occurrence), the substitution yields the same pieces separated by the
arch string; and a path containing no occurrence at all is left
unchanged. -/
theorem replace_basearch_every_occurrence (arch : List Char) :
    (∀ parts : List (List Char), (∀ p ∈ parts, containsSub basearchPat p = false) →
      replaceList arch (List.intercalate basearchPat parts) =
        List.intercalate arch parts) ∧
    (∀ p : List Char, containsSub basearchPat p = false → replaceList arch p = p) := by
  constructor
  · intro parts
    induction parts with
    | nil => intro _; rfl
    | cons p parts' ih =>
      intro h
      cases parts' with
      | nil =>
        have hsingle : List.intercalate basearchPat [p] = p := by
          simp [List.intercalate]
        have hsingle' : List.intercalate arch [p] = p := by
          simp [List.intercalate]
        rw [hsingle, hsingle']
        exact replaceList_no_occurrence arch p (h p (by simp))
      | cons q parts'' =>
        rw [intercalate_two_or_more basearchPat p q parts'',
          intercalate_two_or_more arch p q parts'',
          replaceList_skip_clean arch p (List.intercalate basearchPat (q :: parts''))
            (h p (by simp)),
          ih (fun x hx => h x (by simp [hx]))]
  · intro p h
    exact replaceList_no_occurrence arch p h

/-- Witness for C10 on concrete inputs: two occurrences are both
replaced, and a pattern-free path is unchanged. -/
theorem replace_basearch_every_occurrence_witness :
    replaceList ['a', 'r', 'm'] (List.intercalate basearchPat [['p'], ['q', 'r'], []]) =
      List.intercalate ['a', 'r', 'm'] [['p'], ['q', 'r'], []] ∧
    replaceList ['a', 'r', 'm'] ['x', '8', '6'] = ['x', '8', '6'] :=
  ⟨(replace_basearch_every_occurrence ['a', 'r', 'm']).1 [['p'], ['q', 'r'], []] (by decide),
   (replace_basearch_every_occurrence ['a', 'r', 'm']).2 ['x', '8', '6'] (by decide)⟩

/-- C6: for a mirror whose name is present in the per-mirror whitelist
table, every candidate the enumeration loops emit has its repo name in
the entry's allowed repo list and its arch in the entry's allowed arch
list, whatever the global configuration would otherwise permit. -/
theorem whitelist_override_restricts (cfg : MainConfig) (m : MirrorData)
    (mirror_url : String) (wl : ArchRepoWhitelist)
    (h : whitelistEntry m.name = some wl) :
    (emittedChecks cfg m mirror_url).all
      (fun e => wl.repos.contains e.repoName && wl.arches.contains e.arch) = true := by
  rw [List.all_eq_true]
  intro e he
  rw [emittedChecks, List.mem_flatMap] at he
  obtain ⟨version, _, he⟩ := he
  rw [versionEmit] at he
  split_ifs at he with hv1 hv2
  · exact absurd he (List.not_mem_nil e)
  · exact absurd he (List.not_mem_nil e)
  · rw [List.mem_flatMap] at he
    obtain ⟨repo_data, _, he⟩ := he
    rw [repoEmit] at he
    split_ifs at he with hr1 hr2 hr3
    · exact absurd he (List.not_mem_nil e)
    · exact absurd he (List.not_mem_nil e)
    · exact absurd he (List.not_mem_nil e)
    · rw [List.mem_flatMap] at he
      obtain ⟨arch, _, he⟩ := he
      rw [archEmit] at he
      split_ifs at he with ha1 ha2
      · exact absurd he (List.not_mem_nil e)
      · exact absurd he (List.not_mem_nil e)
      · rw [List.mem_singleton] at he
        subst he
        rw [Bool.and_eq_true]
        constructor
        · have hskip : whitelistRepoSkip m.name repo_data.name = false :=
            Bool.of_not_eq_true hr1
          unfold whitelistRepoSkip at hskip
          rw [h] at hskip
          simpa using hskip
        · have hskip : whitelistArchSkip m.name arch = false :=
            Bool.of_not_eq_true ha1
          unfold whitelistArchSkip at hskip
          rw [h] at hskip
          simpa using hskip

/-- Configuration used by the whitelist override witness. -/
def overrideExampleConfig : MainConfig :=
  ⟨["8"], [], ["x86_64"], [], ["https"], [⟨"BaseOS", "$basearch/os", [], [], false⟩]⟩

/-- Azure mirror present in the whitelist table, used by the override
witness. -/
def overrideExampleMirror : MirrorData :=
  ⟨"eastus.azure.repo.almalinux.org",
   [("https", "https://eastus.azure.repo.almalinux.org/almalinux")], false, "azure"⟩

/-- Witness for C6 at a whitelisted Azure mirror: every emitted
candidate stays inside the allowed repo and arch lists of its entry. -/
theorem whitelist_override_restricts_witness :
    (emittedChecks overrideExampleConfig overrideExampleMirror
        "https://eastus.azure.repo.almalinux.org/almalinux").all
      (fun e =>
        (ArchRepoWhitelist.mk ["x86_64", "aarch64"]
          ["AppStream", "BaseOS", "HighAvailability", "NFV", "PowerTools", "RT",
           "ResilientStorage", "devel", "extras", "plus"]).repos.contains e.repoName &&
        (ArchRepoWhitelist.mk ["x86_64", "aarch64"]
          ["AppStream", "BaseOS", "HighAvailability", "NFV", "PowerTools", "RT",
           "ResilientStorage", "devel", "extras", "plus"]).arches.contains e.arch) = true :=
  whitelist_override_restricts overrideExampleConfig overrideExampleMirror
    "https://eastus.azure.repo.almalinux.org/almalinux"
    (ArchRepoWhitelist.mk ["x86_64", "aarch64"]
      ["AppStream", "BaseOS", "HighAvailability", "NFV", "PowerTools", "RT",
       "ResilientStorage", "devel", "extras", "plus"]) rfl
